import Mathlib

/-!
A shallow embedding of the kvqlite key-value store (src/lib.rs,
src/storage/append.rs, src/storage/update_in_place.rs,
src/begin_immediate.rs).

Modelling conventions:
* Keys and encoded values are byte sequences, modelled as `List Nat`.
* SQLite `datetime` timestamps are stored as strings in the fixed format
  produced by STRFTIME, whose lexicographic order agrees with chronological
  order; they are modelled as `Nat`.  The clock value observed by a statement
  is passed explicitly as a `now` argument.
* A SQLite table is a list of rows in rowid order; `integer primary key`
  rowids are assigned as one more than the current maximum rowid, which
  `freshId` reproduces.
* The ciborium codec is an external dependency (not under src/); operations
  store and return raw encoded bytes and the codec enters the development
  only as an abstract encode/decode pair.
-/

namespace Kvqlite

/-- Keys and encoded values are opaque byte sequences. -/
abbrev Bytes := List Nat

/-- Construction configuration, from `Options` in src/lib.rs:
`in_memory: bool` and `db_path: Option<PathBuf>` (paths as strings). -/
structure Options where
  in_memory : Bool
  db_path : Option String
deriving DecidableEq

/-- The connection-string selection at the top of `Append::open`
(src/storage/append.rs lines 18-24): in-memory wins over any path, then an
explicit path, then the fixed default file. -/
def Append.dbPath (o : Options) : String :=
  if o.in_memory then
    "sqlite::memory:"
  else
    match o.db_path with
    | some p => p
    | none => "sqlite://kvqlite.db"

/-- The identical connection-string selection at the top of
`UpdateInPlace::open` (src/storage/update_in_place.rs lines 18-24). -/
def UpdateInPlace.dbPath (o : Options) : String :=
  if o.in_memory then
    "sqlite::memory:"
  else
    match o.db_path with
    | some p => p
    | none => "sqlite://kvqlite.db"

/-- A row of the `keys` table of the Append strategy:
`id integer primary key, key blob not null (unique), inserted_at datetime`. -/
structure KeyRow where
  id : Nat
  key : Bytes
  inserted_at : Nat
deriving DecidableEq

/-- A row of the `vvalues` table of the Append strategy:
`id integer primary key, key_id integer references keys(id) on delete
cascade, value blob, inserted_at datetime`. -/
structure ValueRow where
  id : Nat
  key_id : Nat
  value : Bytes
  inserted_at : Nat
deriving DecidableEq

/-- The database state of the Append strategy: the two tables, each in
rowid order. -/
structure AppendState where
  keys : List KeyRow
  vvalues : List ValueRow
deriving DecidableEq

/-- The state right after `Append::open` on a fresh database: both tables
exist and are empty. -/
def Append.openState : AppendState := ⟨[], []⟩

/-- SQLite assigns a fresh `integer primary key` rowid as one more than the
largest rowid currently in the table (1 for an empty table). -/
def freshId (ids : List Nat) : Nat := ids.foldr max 0 + 1

/-- The key-entry upsert in `Append::write` (src/storage/append.rs lines
134-143): `insert into keys (key) values(?) on conflict do update set
key=excluded.key returning id`.  On conflict the existing row keeps its id
and its key is overwritten with the identical bytes, so the state is
unchanged; otherwise a fresh row is appended.  Returns the state and the
returned id. -/
def AppendState.upsertKey (s : AppendState) (key : Bytes) (now : Nat) :
    AppendState × Nat :=
  match s.keys.find? (fun r => r.key == key) with
  | some r => (s, r.id)
  | none =>
      let kid := freshId (s.keys.map (·.id))
      ({ s with keys := s.keys ++ [⟨kid, key, now⟩] }, kid)

/-- The value insert in `Append::write` (src/storage/append.rs lines
145-152): `insert into vvalues (key_id, value) values(?, ?)`, with
`inserted_at` defaulted to the current time. -/
def AppendState.insertValue (s : AppendState) (kid : Nat) (value : Bytes)
    (now : Nat) : AppendState :=
  { s with
    vvalues := s.vvalues ++ [⟨freshId (s.vvalues.map (·.id)), kid, value, now⟩] }

/-- The transaction guard of src/begin_immediate.rs: `base` is the durable
database state at `BEGIN IMMEDIATE`, `current` the working state including
uncommitted statements, and `is_open` the guard's flag. -/
structure Tx where
  base : AppendState
  current : AppendState
  is_open : Bool
deriving DecidableEq

/-- `SqliteConnectionExt::begin_immediate`: executes `BEGIN IMMEDIATE;` and
returns an open guard whose working state starts at the durable state. -/
def AppendState.beginImmediate (s : AppendState) : Tx := ⟨s, s, true⟩

/-- `Transaction::commit`: executes `COMMIT;`; on success the working state
becomes durable and the guard is marked closed. -/
def Tx.commit (tx : Tx) : Tx := { tx with is_open := false }

/-- `impl Drop for Transaction` (src/begin_immediate.rs lines 41-58): when
the guard is dropped while still open, `ROLLBACK;` is executed and the
durable state is the base state; a closed guard leaves the committed state
in place.  The result is the durable database state after the drop. -/
def Tx.drop (tx : Tx) : AppendState :=
  if tx.is_open then tx.base else tx.current

/-- `Append::write` (src/storage/append.rs lines 122-157): begin an
immediate transaction, upsert the key entry to obtain its id, insert a new
value entry referencing that id, commit, and drop the (now closed) guard. -/
def AppendState.write (s : AppendState) (key value : Bytes) (now : Nat) :
    AppendState :=
  let tx := s.beginImmediate
  let up := tx.current.upsertKey key now
  let tx1 : Tx := { tx with current := up.1 }
  let tx2 : Tx := { tx1 with current := up.1.insertValue up.2 value now }
  tx2.commit.drop

/-- The aborted-write scenario: the guard of `Append::write` is dropped
right after the key-entry upsert has executed, before the value insert and
the commit.  `Tx.drop` runs the rollback because the guard is still open. -/
def AppendState.writeAbortedAfterUpsert (s : AppendState) (key : Bytes)
    (now : Nat) : AppendState :=
  let tx := s.beginImmediate
  let up := tx.current.upsertKey key now
  let tx1 : Tx := { tx with current := up.1 }
  tx1.drop

/-- Comparison step of `order by vvalues.inserted_at desc limit 1`: of two
rows, the one with the later `inserted_at` wins; rows with equal
`inserted_at` are returned by the backwards index scan in descending rowid
order, so the larger rowid wins a tie. -/
def newer (a b : ValueRow) : ValueRow :=
  if a.inserted_at < b.inserted_at then b
  else if b.inserted_at < a.inserted_at then a
  else if a.id < b.id then b
  else a

/-- The first row of `order by vvalues.inserted_at desc limit 1` over a list
of rows, `none` when there are no rows. -/
def latest : List ValueRow → Option ValueRow
  | [] => none
  | r :: rs => some (rs.foldl newer r)

/-- `Append::read` (src/storage/append.rs lines 91-120): join `keys` (unique
lookup on `key`) with `vvalues` on `key_id`, order by `inserted_at`
descending, take the first row's value bytes; absent key or no value rows
give `none`. -/
def AppendState.read (s : AppendState) (key : Bytes) : Option Bytes :=
  match s.keys.find? (fun r => r.key == key) with
  | none => none
  | some k => (latest (s.vvalues.filter (fun v => v.key_id == k.id))).map (·.value)

/-- `Append::delete` (src/storage/append.rs lines 159-176): `delete from
keys where key = ?`; the `on delete cascade` foreign key of `vvalues`
(enabled by the connection options) removes every value row whose `key_id`
referenced a deleted key row. -/
def AppendState.delete (s : AppendState) (key : Bytes) : AppendState :=
  let deadIds := (s.keys.filter (fun r => r.key == key)).map (·.id)
  { keys := s.keys.filter (fun r => !(r.key == key)),
    vvalues := s.vvalues.filter (fun v => !(deadIds.contains v.key_id)) }

/-- `Append::keys`: `select key from keys`. -/
def AppendState.keysList (s : AppendState) : List Bytes := s.keys.map (·.key)

/-- `Append::keys_count`: `select count(*) from keys`. -/
def AppendState.keys_count (s : AppendState) : Nat := s.keys.length

/-- `Db::<Append>::entries_count` (src/lib.rs lines 115-129):
`select count(*) from vvalues`. -/
def AppendState.entries_count (s : AppendState) : Nat := s.vvalues.length

/-- The value rows of one `key_id` group, in rowid order. -/
def AppendState.valuesFor (s : AppendState) (kid : Nat) : List ValueRow :=
  s.vvalues.filter (fun v => v.key_id == kid)

/-- `max(inserted_at)` of one `key_id` group of `vvalues` (0 on an empty
group, which never arises for a group that occurs). -/
def AppendState.groupMaxTs (s : AppendState) (kid : Nat) : Nat :=
  ((s.valuesFor kid).map (·.inserted_at)).foldr max 0

/-- The row the `current_values` CTE of `Db::<Append>::collect_garbage`
(src/lib.rs lines 91-106) reports for one `key_id` group:
`select id, max(inserted_at) from vvalues group by key_id` — under SQLite's
bare-column rule the reported `id` comes from a single row of the group
attaining the group maximum of `inserted_at` (the first such row in scan
order when several tie). -/
def AppendState.chosenRow (s : AppendState) (kid : Nat) : Option ValueRow :=
  (s.valuesFor kid).find? (fun v => v.inserted_at == s.groupMaxTs kid)

/-- The set of ids of the `current_values` CTE: one id per `key_id`
occurring in `vvalues`. -/
def AppendState.currentValueIds (s : AppendState) : List Nat :=
  (s.vvalues.map (·.key_id)).dedup.filterMap (fun kid => (s.chosenRow kid).map (·.id))

/-- `Db::<Append>::collect_garbage` (src/lib.rs lines 88-112):
`delete from vvalues where id not in (select id from current_values)`. -/
def AppendState.collect_garbage (s : AppendState) : AppendState :=
  { s with vvalues := s.vvalues.filter (fun v => decide (v.id ∈ s.currentValueIds)) }

/-- A row of the `kvs` table of the UpdateInPlace strategy:
`key blob primary key, value blob, inserted_at datetime, updated_at
datetime`. -/
structure KvRow where
  key : Bytes
  value : Bytes
  inserted_at : Nat
  updated_at : Nat
deriving DecidableEq

/-- The database state of the UpdateInPlace strategy. -/
structure UpdateInPlaceState where
  kvs : List KvRow
deriving DecidableEq

/-- The state right after `UpdateInPlace::open` on a fresh database. -/
def UpdateInPlace.openState : UpdateInPlaceState := ⟨[]⟩

/-- `UpdateInPlace::write` (src/storage/update_in_place.rs lines 80-103):
`insert into kvs(key, value) values(?, ?) on conflict(key) do update set
value = excluded.value`.  On conflict the existing row's value is replaced
and its timestamps are untouched; otherwise a fresh row is appended with
both timestamps defaulted to now. -/
def UpdateInPlaceState.write (u : UpdateInPlaceState) (key value : Bytes)
    (now : Nat) : UpdateInPlaceState :=
  if u.kvs.any (fun r => r.key == key) then
    ⟨u.kvs.map (fun r => if r.key == key then { r with value := value } else r)⟩
  else
    ⟨u.kvs ++ [⟨key, value, now, now⟩]⟩

/-- `UpdateInPlace::read` (src/storage/update_in_place.rs lines 54-78):
`select value from kvs where key = ?`, `none` when absent. -/
def UpdateInPlaceState.read (u : UpdateInPlaceState) (key : Bytes) :
    Option Bytes :=
  (u.kvs.find? (fun r => r.key == key)).map (·.value)

/-- `UpdateInPlace::delete` (src/storage/update_in_place.rs lines 105-122):
`delete from kvs where key = ?`. -/
def UpdateInPlaceState.delete (u : UpdateInPlaceState) (key : Bytes) :
    UpdateInPlaceState :=
  ⟨u.kvs.filter (fun r => !(r.key == key))⟩

/-- `UpdateInPlace::keys`: `select key from kvs`. -/
def UpdateInPlaceState.keysList (u : UpdateInPlaceState) : List Bytes :=
  u.kvs.map (·.key)

/-- `UpdateInPlace::keys_count`: `select count(*) from kvs`. -/
def UpdateInPlaceState.keys_count (u : UpdateInPlaceState) : Nat :=
  u.kvs.length

/-- Repeatedly `Append::write` the same key, once per `(value, timestamp)`
pair, in order. -/
def AppendState.writeMany (s : AppendState) (key : Bytes)
    (pairs : List (Bytes × Nat)) : AppendState :=
  pairs.foldl (fun st p => st.write key p.1 p.2) s

/-- Apply a sequence of `UpdateInPlace::write` calls, one per
`(key, value, timestamp)` triple, in order. -/
def UpdateInPlaceState.writeSeq (u : UpdateInPlaceState)
    (ws : List (Bytes × Bytes × Nat)) : UpdateInPlaceState :=
  ws.foldl (fun st w => st.write w.1 w.2.1 w.2.2) u

/-- A state with two value entries for the same key sharing the identical
maximum `inserted_at`: one key row and two value rows, both at timestamp 5. -/
def tieState : AppendState :=
  ⟨[⟨1, [0], 0⟩], [⟨1, 1, [7], 5⟩, ⟨2, 1, [8], 5⟩]⟩

/-- No two rows of `vvalues` share a rowid: the `integer primary key`
invariant of the table. -/
def AppendState.valueIdsNodup (s : AppendState) : Prop :=
  (s.vvalues.map (·.id)).Nodup

/-- No two rows of `keys` share their `key` bytes: the unique index
`keys_key` of `Append::open`. -/
def AppendState.keysUnique (s : AppendState) : Prop :=
  (s.keys.map (·.key)).Nodup

/-- No two rows of `kvs` share their `key` bytes: the primary-key constraint
of the UpdateInPlace schema. -/
def UpdateInPlaceState.keysUnique (u : UpdateInPlaceState) : Prop :=
  (u.kvs.map (·.key)).Nodup

/-! ### List helpers -/

theorem le_foldr_max {a : Nat} : ∀ {l : List Nat}, a ∈ l → a ≤ l.foldr max 0
  | b :: t, h => by
    rcases List.mem_cons.mp h with h | h
    · subst h; exact le_max_left _ _
    · exact le_trans (le_foldr_max h) (le_max_right _ _)

theorem foldr_max_le {c : Nat} : ∀ {l : List Nat}, (∀ a ∈ l, a ≤ c) → l.foldr max 0 ≤ c
  | [], _ => Nat.zero_le c
  | b :: t, h => by
    simp only [List.foldr_cons]
    exact max_le (h b (List.mem_cons_self b t))
      (foldr_max_le fun a ha => h a (List.mem_cons_of_mem _ ha))

theorem foldr_max_mem {l : List Nat} (h : l ≠ []) : l.foldr max 0 ∈ l := by
  induction l with
  | nil => exact absurd rfl h
  | cons b t ih =>
    rcases eq_or_ne t [] with rfl | ht
    · simp
    · have hm := ih ht
      rcases max_choice b (t.foldr max 0) with hb | hb <;> simp only [List.foldr_cons, hb]
      · exact List.mem_cons_self _ _
      · exact List.mem_cons_of_mem _ hm

theorem appendState_ext {s t : AppendState} (h1 : s.keys = t.keys)
    (h2 : s.vvalues = t.vvalues) : s = t := by
  cases s; cases t; simp_all

/-! ### The ordering used by the read query -/

theorem newer_mem (a b : ValueRow) : newer a b = a ∨ newer a b = b := by
  unfold newer
  split
  · exact Or.inr rfl
  split
  · exact Or.inl rfl
  split
  · exact Or.inr rfl
  · exact Or.inl rfl

theorem newer_eq_right {a b : ValueRow} (h1 : a.inserted_at ≤ b.inserted_at)
    (h2 : a.id < b.id) : newer a b = b := by
  rcases lt_or_eq_of_le h1 with h | h
  · simp [newer, h]
  · simp [newer, h, h2]

theorem foldl_newer_mem (l : List ValueRow) : ∀ a : ValueRow, l.foldl newer a ∈ a :: l := by
  induction l with
  | nil => intro a; simp
  | cons b t ih =>
    intro a
    simp only [List.foldl_cons]
    rcases newer_mem a b with hm | hm <;> rw [hm]
    · rcases List.mem_cons.mp (ih a) with h1 | h1
      · rw [h1]; exact List.mem_cons_self _ _
      · exact List.mem_cons_of_mem _ (List.mem_cons_of_mem _ h1)
    · exact List.mem_cons_of_mem _ (ih b)

theorem foldl_newer_concat {r : ValueRow} :
    ∀ (l : List ValueRow) (a : ValueRow),
      (∀ x ∈ a :: l, x.inserted_at ≤ r.inserted_at ∧ x.id < r.id) →
      (l ++ [r]).foldl newer a = r
  | [], a, h => by
    have ha := h a (List.mem_cons_self _ _)
    simpa using newer_eq_right ha.1 ha.2
  | b :: t, a, h => by
    simp only [List.cons_append, List.foldl_cons]
    apply foldl_newer_concat t (newer a b)
    intro x hx
    rcases List.mem_cons.mp hx with h1 | h1
    · rcases newer_mem a b with hm | hm <;> rw [h1, hm]
      · exact h a (List.mem_cons_self _ _)
      · exact h b (by simp)
    · exact h x (by simp [h1])

theorem latest_concat {l : List ValueRow} {r : ValueRow}
    (h : ∀ x ∈ l, x.inserted_at ≤ r.inserted_at ∧ x.id < r.id) :
    latest (l ++ [r]) = some r := by
  cases l with
  | nil => rfl
  | cons a t =>
    simp only [List.cons_append, latest]
    exact congrArg some (foldl_newer_concat t a h)

/-! ### Append write lemmas -/

theorem upsertKey_vvalues (s : AppendState) (key : Bytes) (now : Nat) :
    (s.upsertKey key now).1.vvalues = s.vvalues := by
  unfold AppendState.upsertKey
  cases s.keys.find? (fun r => r.key == key) <;> rfl

theorem write_eq_steps (s : AppendState) (key value : Bytes) (now : Nat) :
    s.write key value now
      = (s.upsertKey key now).1.insertValue (s.upsertKey key now).2 value now := rfl

theorem write_vvalues (s : AppendState) (key value : Bytes) (now : Nat) :
    (s.write key value now).vvalues
      = s.vvalues ++ [⟨freshId (s.vvalues.map (·.id)), (s.upsertKey key now).2, value, now⟩] := by
  rw [write_eq_steps]
  unfold AppendState.insertValue
  rw [upsertKey_vvalues]

theorem write_keys (s : AppendState) (key value : Bytes) (now : Nat) :
    (s.write key value now).keys = (s.upsertKey key now).1.keys := rfl

theorem upsertKey_find (s : AppendState) (key : Bytes) (now : Nat) :
    ∃ k : KeyRow, (s.upsertKey key now).1.keys.find? (fun r => r.key == key) = some k
      ∧ k.id = (s.upsertKey key now).2 := by
  unfold AppendState.upsertKey
  cases hf : s.keys.find? (fun r => r.key == key) with
  | some r => exact ⟨r, hf, rfl⟩
  | none =>
    refine ⟨⟨freshId (s.keys.map (·.id)), key, now⟩, ?_, rfl⟩
    rw [List.find?_append, hf]
    simp

theorem read_write_fresh (s : AppendState) (key value : Bytes) (now : Nat)
    (h : ∀ r ∈ s.vvalues, r.inserted_at ≤ now) :
    (s.write key value now).read key = some value := by
  obtain ⟨k, hk, hkid⟩ := upsertKey_find s key now
  unfold AppendState.read
  rw [show (s.write key value now).keys = (s.upsertKey key now).1.keys from rfl, hk]
  show (latest ((s.write key value now).vvalues.filter (fun v => v.key_id == k.id))).map
      (fun x => x.value) = some value
  rw [write_vvalues, List.filter_append]
  have hnew : List.filter (fun v => v.key_id == k.id)
      ([⟨freshId (List.map (fun r => r.id) s.vvalues), (s.upsertKey key now).2, value, now⟩] :
        List ValueRow)
      = [⟨freshId (List.map (fun r => r.id) s.vvalues), (s.upsertKey key now).2, value, now⟩] := by
    simp [hkid]
  rw [hnew, latest_concat]
  · rfl
  · intro x hx
    rw [List.mem_filter] at hx
    refine ⟨h x hx.1, ?_⟩
    have : x.id ≤ (s.vvalues.map (·.id)).foldr max 0 :=
      le_foldr_max (List.mem_map_of_mem _ hx.1)
    simp only [freshId]
    omega

/-! ### UpdateInPlace lemmas -/

theorem uip_find_update (l : List KvRow) (key value : Bytes)
    (h : l.any (fun r => r.key == key) = true) :
    ((l.map (fun r => if r.key == key then { r with value := value } else r)).find?
      (fun r => r.key == key)).map (fun r => r.value) = some value := by
  induction l with
  | nil => simp at h
  | cons r t ih =>
    by_cases hr : (r.key == key) = true
    · simp only [List.map_cons]
      rw [if_pos hr]
      rw [@List.find?_cons_of_pos KvRow (fun x => x.key == key)
        ⟨r.key, value, r.inserted_at, r.updated_at⟩ _ hr]
      rfl
    · have hrf : (r.key == key) = false := by simpa using hr
      rw [List.any_cons, hrf, Bool.false_or] at h
      simp only [List.map_cons]
      rw [if_neg hr]
      rw [@List.find?_cons_of_neg KvRow (fun x => x.key == key) r _ hr]
      exact ih h

theorem uip_read_write (u : UpdateInPlaceState) (key value : Bytes) (now : Nat) :
    (u.write key value now).read key = some value := by
  unfold UpdateInPlaceState.write UpdateInPlaceState.read
  by_cases hany : u.kvs.any (fun r => r.key == key) = true
  · rw [if_pos hany]
    exact uip_find_update u.kvs key value hany
  · rw [if_neg hany]
    have hnone : u.kvs.find? (fun r => r.key == key) = none := by
      rw [List.find?_eq_none]
      intro x hx hpx
      exact hany (List.any_eq_true.mpr ⟨x, hx, hpx⟩)
    rw [List.find?_append, hnone]
    simp

theorem uip_write_key_eq (r : KvRow) (key value : Bytes) :
    ((if r.key == key then { r with value := value } else r) : KvRow).key = r.key := by
  split <;> rfl

theorem uip_write_keysUnique (u : UpdateInPlaceState) (key value : Bytes) (now : Nat)
    (h : u.keysUnique) : (u.write key value now).keysUnique := by
  unfold UpdateInPlaceState.write
  by_cases hany : u.kvs.any (fun r => r.key == key) = true
  · rw [if_pos hany]
    show (List.map (fun r : KvRow => r.key) (u.kvs.map
      (fun r => if r.key == key then { r with value := value } else r))).Nodup
    rw [List.map_map]
    have : ((fun r : KvRow => r.key) ∘
        fun r => if r.key == key then { r with value := value } else r)
        = fun r : KvRow => r.key := funext fun r => uip_write_key_eq r key value
    rw [this]
    exact h
  · rw [if_neg hany]
    show (List.map (fun r : KvRow => r.key) (u.kvs ++ [⟨key, value, now, now⟩])).Nodup
    rw [List.map_append, List.nodup_append]
    refine ⟨h, by simp, ?_⟩
    intro x hx hmem
    simp only [List.map_cons, List.map_nil, List.mem_singleton] at hmem
    subst hmem
    rw [List.mem_map] at hx
    obtain ⟨r, hr, hrk⟩ := hx
    exact hany (List.any_eq_true.mpr ⟨r, hr, by rw [hrk]; exact beq_self_eq_true _⟩)

theorem length_filter_key_le_one {l : List KvRow} (key : Bytes)
    (h : (l.map (fun r : KvRow => r.key)).Nodup) :
    (l.filter (fun r => r.key == key)).length ≤ 1 := by
  induction l with
  | nil => simp
  | cons r t ih =>
    rw [List.map_cons, List.nodup_cons] at h
    by_cases hr : (r.key == key) = true
    · rw [@List.filter_cons_of_pos KvRow (fun x => x.key == key) r t hr]
      have ht : t.filter (fun x => x.key == key) = [] := by
        apply List.filter_eq_nil_iff.mpr
        intro x hx hpx
        apply h.1
        rw [List.mem_map]
        refine ⟨x, hx, ?_⟩
        rw [beq_iff_eq] at hr hpx
        rw [hpx, hr]
      rw [ht]
      simp
    · rw [@List.filter_cons_of_neg KvRow (fun x => x.key == key) r t hr]
      exact ih h.2

theorem uip_write_countKey (u : UpdateInPlaceState) (key value : Bytes) (now : Nat)
    (h : u.keysUnique) :
    ((u.write key value now).kvs.filter (fun r => r.key == key)).length = 1 := by
  unfold UpdateInPlaceState.write
  by_cases hany : u.kvs.any (fun r => r.key == key) = true
  · rw [if_pos hany]
    show (List.filter _ (u.kvs.map _)).length = 1
    rw [← List.countP_eq_length_filter, List.countP_map]
    have hpe : ((fun r : KvRow => r.key == key) ∘
        fun r => if r.key == key then { r with value := value } else r)
        = fun r : KvRow => r.key == key :=
      funext fun r => by rw [Function.comp_apply, uip_write_key_eq]
    rw [hpe, List.countP_eq_length_filter]
    -- with unique keys a present key occurs exactly once
    obtain ⟨x, hx, hpx⟩ := List.any_eq_true.mp hany
    have hnd : (u.kvs.map (fun r : KvRow => r.key)).Nodup := h
    have hle := length_filter_key_le_one key hnd
    have hge : 0 < (u.kvs.filter (fun r => r.key == key)).length :=
      List.length_pos.mpr (List.ne_nil_of_mem (List.mem_filter.mpr ⟨hx, hpx⟩))
    omega
  · rw [if_neg hany]
    show (List.filter _ (u.kvs ++ _)).length = 1
    rw [List.filter_append]
    have h0 : u.kvs.filter (fun r => r.key == key) = [] :=
      List.filter_eq_nil_iff.mpr fun x hx hpx =>
        hany (List.any_eq_true.mpr ⟨x, hx, hpx⟩)
    rw [h0]
    simp

/-! ### Garbage-collection lemmas -/

theorem mem_valuesFor {s : AppendState} {kid : Nat} {v : ValueRow} :
    v ∈ s.valuesFor kid ↔ v ∈ s.vvalues ∧ v.key_id = kid := by
  simp [AppendState.valuesFor, List.mem_filter]

theorem le_groupMaxTs {s : AppendState} {kid : Nat} {v : ValueRow}
    (h : v ∈ s.valuesFor kid) : v.inserted_at ≤ s.groupMaxTs kid :=
  le_foldr_max (List.mem_map_of_mem _ h)

theorem chosenRow_spec {s : AppendState} {kid : Nat} {w : ValueRow}
    (h : s.chosenRow kid = some w) :
    w ∈ s.vvalues ∧ w.key_id = kid ∧ w.inserted_at = s.groupMaxTs kid := by
  have hm := List.mem_of_find?_eq_some h
  have hp := List.find?_some h
  rw [beq_iff_eq] at hp
  obtain ⟨h1, h2⟩ := mem_valuesFor.mp hm
  exact ⟨h1, h2, hp⟩

theorem chosenRow_isSome {s : AppendState} {kid : Nat} {v : ValueRow}
    (hv : v ∈ s.valuesFor kid) : ∃ w, s.chosenRow kid = some w := by
  have hne : (s.valuesFor kid).map (fun r => r.inserted_at) ≠ [] := by
    intro hc
    rw [List.map_eq_nil_iff] at hc
    rw [hc] at hv
    cases hv
  have hmem := foldr_max_mem hne
  rw [List.mem_map] at hmem
  obtain ⟨w, hw, hweq⟩ := hmem
  have : (s.valuesFor kid).find? (fun x => x.inserted_at == s.groupMaxTs kid) ≠ none := by
    intro hc
    rw [List.find?_eq_none] at hc
    exact hc w hw (by rw [beq_iff_eq]; exact hweq)
  cases hcr : (s.valuesFor kid).find? (fun x => x.inserted_at == s.groupMaxTs kid) with
  | none => exact absurd hcr this
  | some w2 => exact ⟨w2, hcr⟩

theorem mem_currentValueIds {s : AppendState} {i : Nat} :
    i ∈ s.currentValueIds ↔ ∃ kid, kid ∈ s.vvalues.map (fun r => r.key_id) ∧
      ∃ w, s.chosenRow kid = some w ∧ w.id = i := by
  simp [AppendState.currentValueIds, List.mem_filterMap, List.mem_dedup,
    Option.map_eq_some']

theorem survives_iff {s : AppendState} (hid : s.valueIdsNodup) {r : ValueRow}
    (hr : r ∈ s.vvalues) :
    r.id ∈ s.currentValueIds ↔ s.chosenRow r.key_id = some r := by
  constructor
  · intro h
    obtain ⟨kid, _, w, hw, hwi⟩ := mem_currentValueIds.mp h
    obtain ⟨hwmem, hwkid, _⟩ := chosenRow_spec hw
    have hwr : w = r := List.inj_on_of_nodup_map hid hwmem hr hwi
    rw [hwr] at hw hwkid
    rw [hwkid]
    exact hw
  · intro h
    exact mem_currentValueIds.mpr
      ⟨r.key_id, List.mem_map_of_mem _ hr, r, h, rfl⟩

theorem gc_vvalues_eq (s : AppendState) (hid : s.valueIdsNodup) :
    (s.collect_garbage).vvalues
      = s.vvalues.filter (fun r => decide (s.chosenRow r.key_id = some r)) := by
  show s.vvalues.filter _ = _
  exact List.filter_congr fun r hr => by
    rw [decide_eq_decide]
    exact survives_iff hid hr

theorem chosenRow_of_all_eq {l : List ValueRow} {r : ValueRow} (hr : r ∈ l)
    (hall : ∀ x ∈ l, x = r) :
    l.find? (fun v => v.inserted_at == (l.map (fun x => x.inserted_at)).foldr max 0)
      = some r := by
  cases l with
  | nil => cases hr
  | cons a t =>
    have ha : a = r := hall a (List.mem_cons_self _ _)
    have hmax : (((a :: t).map (fun x => x.inserted_at)).foldr max 0) = a.inserted_at := by
      apply le_antisymm
      · apply foldr_max_le
        intro x hx
        rw [List.mem_map] at hx
        obtain ⟨y, hy, rfl⟩ := hx
        rw [hall y hy, ← ha]
      · exact le_foldr_max (List.mem_map_of_mem _ (List.mem_cons_self _ _))
    rw [List.find?_cons_of_pos _ (by rw [hmax]; exact beq_self_eq_true _)]
    rw [ha]

theorem gc_mem_vvalues {s : AppendState} {r : ValueRow}
    (h : r ∈ (s.collect_garbage).vvalues) : r ∈ s.vvalues :=
  (List.mem_filter.mp h).1

theorem gc_chosen_of_mem (s : AppendState) (hid : s.valueIdsNodup) {r : ValueRow}
    (hr : r ∈ (s.collect_garbage).vvalues) : s.chosenRow r.key_id = some r := by
  rw [gc_vvalues_eq s hid] at hr
  have := (List.mem_filter.mp hr).2
  rwa [decide_eq_true_eq] at this

/-! ### Sequences of Append writes -/

theorem write_keysUnique (s : AppendState) (key value : Bytes) (now : Nat)
    (h : s.keysUnique) : (s.write key value now).keysUnique := by
  show ((s.upsertKey key now).1.keys.map (fun r : KeyRow => r.key)).Nodup
  unfold AppendState.upsertKey
  cases hf : s.keys.find? (fun r => r.key == key) with
  | some r => exact h
  | none =>
    show ((s.keys ++ ([⟨freshId (s.keys.map (fun r : KeyRow => r.id)), key, now⟩] :
      List KeyRow)).map (fun r : KeyRow => r.key)).Nodup
    rw [List.map_append, List.nodup_append]
    refine ⟨h, by simp, ?_⟩
    intro x hx hmem
    simp only [List.map_cons, List.map_nil, List.mem_singleton] at hmem
    subst hmem
    rw [List.mem_map] at hx
    obtain ⟨r, hr, hrk⟩ := hx
    rw [List.find?_eq_none] at hf
    exact hf r hr (by rw [hrk]; exact beq_self_eq_true _)

theorem writeMany_concat (s : AppendState) (key : Bytes) (ps : List (Bytes × Nat))
    (p : Bytes × Nat) :
    s.writeMany key (ps ++ [p]) = (s.writeMany key ps).write key p.1 p.2 := by
  unfold AppendState.writeMany
  rw [List.foldl_append]
  rfl

theorem writeMany_vt (key : Bytes) (ps : List (Bytes × Nat)) :
    (Append.openState.writeMany key ps).vvalues.map (fun r => (r.value, r.inserted_at))
      = ps := by
  induction ps using List.reverseRecOn with
  | nil => rfl
  | append_singleton ps p ih =>
    rw [writeMany_concat, write_vvalues, List.map_append, ih]
    rfl

theorem writeMany_entries (key : Bytes) (ps : List (Bytes × Nat)) :
    (Append.openState.writeMany key ps).entries_count = ps.length := by
  have h := writeMany_vt key ps
  have := congrArg List.length h
  rwa [List.length_map] at this

theorem writeMany_keys_single (key : Bytes) (ps : List (Bytes × Nat)) (hne : ps ≠ []) :
    ∃ t, (Append.openState.writeMany key ps).keys = [⟨1, key, t⟩] := by
  induction ps using List.reverseRecOn with
  | nil => exact absurd rfl hne
  | append_singleton ps p ih =>
    rw [writeMany_concat, write_keys]
    rcases eq_or_ne ps [] with rfl | hps
    · exact ⟨p.2, rfl⟩
    · obtain ⟨t, ht⟩ := ih hps
      refine ⟨t, ?_⟩
      unfold AppendState.upsertKey
      rw [ht]
      rw [@List.find?_cons_of_pos KeyRow (fun r => r.key == key) ⟨1, key, t⟩ []
        (beq_self_eq_true key)]
      exact ht

theorem writeMany_read (key : Bytes) (ps : List (Bytes × Nat))
    (hmono : List.Pairwise (· < ·) (ps.map Prod.snd)) (hne : ps ≠ []) :
    (Append.openState.writeMany key ps).read key = some (ps.getLast hne).1 := by
  induction ps using List.reverseRecOn with
  | nil => exact absurd rfl hne
  | append_singleton ps p _ =>
    rw [writeMany_concat]
    have hlast : (ps ++ [p]).getLast hne = p := List.getLast_concat ps
    rw [hlast]
    apply read_write_fresh
    intro r hr
    have hts : r.inserted_at ∈ ps.map Prod.snd := by
      have hvt := writeMany_vt key ps
      have hm : (r.value, r.inserted_at) ∈ ps := by
        rw [← hvt]
        exact List.mem_map_of_mem _ hr
      exact List.mem_map.mpr ⟨(r.value, r.inserted_at), hm, rfl⟩
    rw [List.map_append] at hmono
    have hlt := (List.pairwise_append.mp hmono).2.2
    exact le_of_lt (hlt _ hts p.2 (by simp))

/-! ### Claim theorems -/

/-- C1: an Append-mode write whose transaction guard is discarded after the
key-entry upsert but before commit issues a rollback, so the state equals
the pre-write state and a subsequent read of any key returns exactly what it
returned before; a committed write performs both the key upsert and the
value insert. -/
theorem append_write_atomic (s : AppendState) (key value : Bytes) (now : Nat) :
    s.writeAbortedAfterUpsert key now = s
    ∧ (∀ k : Bytes, (s.writeAbortedAfterUpsert key now).read k = s.read k)
    ∧ s.write key value now
      = (s.upsertKey key now).1.insertValue (s.upsertKey key now).2 value now :=
  ⟨rfl, fun _ => rfl, rfl⟩

/-- C9: open selects the backing store: with in_memory set, the volatile
in-memory connection string is used regardless of db_path; otherwise an
explicit db_path is used; otherwise the fixed default filename — identically
for both strategies. -/
theorem open_db_path_selection (o : Options) :
    (o.in_memory = true →
      Append.dbPath o = "sqlite::memory:"
      ∧ UpdateInPlace.dbPath o = "sqlite::memory:")
    ∧ (∀ p : String, o.in_memory = false → o.db_path = some p →
      Append.dbPath o = p ∧ UpdateInPlace.dbPath o = p)
    ∧ (o.in_memory = false → o.db_path = none →
      Append.dbPath o = "sqlite://kvqlite.db"
      ∧ UpdateInPlace.dbPath o = "sqlite://kvqlite.db") := by
  refine ⟨fun h => ?_, fun p h hp => ?_, fun h hp => ?_⟩
  · simp [Append.dbPath, UpdateInPlace.dbPath, h]
  · simp [Append.dbPath, UpdateInPlace.dbPath, h, hp]
  · simp [Append.dbPath, UpdateInPlace.dbPath, h, hp]

/-- Witness for open_db_path_selection at concrete configurations. -/
theorem open_db_path_selection_witness :
    Append.dbPath ⟨true, some "other.db"⟩ = "sqlite::memory:"
    ∧ UpdateInPlace.dbPath ⟨false, none⟩ = "sqlite://kvqlite.db" :=
  ⟨((open_db_path_selection ⟨true, some "other.db"⟩).1 rfl).1,
   ((open_db_path_selection ⟨false, none⟩).2.2 rfl rfl).2⟩

/-- C4: for every key and every encodable value, under either strategy, a
successful write followed by a read of the same key returns the value
written, unchanged — given the codec round-trip contract and a write
timestamp no older than any stored entry (the monotonic clock). -/
theorem write_read_roundtrip {V : Type} (enc : V → Bytes) (dec : Bytes → Option V)
    (v : V) (s : AppendState) (u : UpdateInPlaceState) (key : Bytes) (now : Nat)
    (hcodec : dec (enc v) = some v)
    (hts : ∀ r ∈ s.vvalues, r.inserted_at ≤ now) :
    ((s.write key (enc v) now).read key).bind dec = some v
    ∧ ((u.write key (enc v) now).read key).bind dec = some v := by
  constructor
  · rw [read_write_fresh s key (enc v) now hts]
    exact hcodec
  · rw [uip_read_write u key (enc v) now]
    exact hcodec

/-- Witness for write_read_roundtrip with a concrete codec on Nat. -/
theorem write_read_roundtrip_witness :
    ((Append.openState.write [0] [5] 1).read [0]).bind (fun b => b.head?) = some 5
    ∧ ((UpdateInPlace.openState.write [0] [5] 1).read [0]).bind (fun b => b.head?)
      = some 5 :=
  write_read_roundtrip (fun n => [n]) (fun b => b.head?) 5 Append.openState
    UpdateInPlace.openState [0] 1 rfl (by decide)

/-- C8: deleting an absent key succeeds and changes no state, under either
strategy: no row of any relation is added, removed, or modified. -/
theorem delete_absent_noop (s : AppendState) (u : UpdateInPlaceState) (key : Bytes)
    (ha : ∀ r ∈ s.keys, r.key ≠ key) (hu : ∀ r ∈ u.kvs, r.key ≠ key) :
    s.delete key = s ∧ u.delete key = u := by
  constructor
  · have hdead : s.keys.filter (fun r => r.key == key) = [] :=
      List.filter_eq_nil_iff.mpr fun r hr hp => ha r hr (by rwa [beq_iff_eq] at hp)
    apply appendState_ext
    · show s.keys.filter _ = s.keys
      exact List.filter_eq_self.mpr fun r hr => by simp [ha r hr]
    · show s.vvalues.filter _ = s.vvalues
      rw [hdead]
      simp
  · have hkvs : u.kvs.filter (fun r => !(r.key == key)) = u.kvs :=
      List.filter_eq_self.mpr fun r hr => by simp [hu r hr]
    show UpdateInPlaceState.mk _ = u
    rw [hkvs]

/-- Witness for delete_absent_noop at concrete states and an absent key. -/
theorem delete_absent_noop_witness :
    (⟨[⟨1, [0], 0⟩], [⟨1, 1, [2], 3⟩]⟩ : AppendState).delete [9]
      = ⟨[⟨1, [0], 0⟩], [⟨1, 1, [2], 3⟩]⟩
    ∧ (⟨[⟨[0], [1], 0, 0⟩]⟩ : UpdateInPlaceState).delete [9] = ⟨[⟨[0], [1], 0, 0⟩]⟩ :=
  delete_absent_noop ⟨[⟨1, [0], 0⟩], [⟨1, 1, [2], 3⟩]⟩ ⟨[⟨[0], [1], 0, 0⟩]⟩ [9]
    (by decide) (by decide)

/-- C6: UpdateInPlace keeps at most one stored row per key after any
sequence of writes; writing the same key twice with different values leaves
exactly one row for that key and read returns the second value. -/
theorem uip_single_row (ws : List (Bytes × Bytes × Nat)) (u : UpdateInPlaceState)
    (key v1 v2 : Bytes) (t1 t2 : Nat) (hu : u.keysUnique) :
    (UpdateInPlace.openState.writeSeq ws).keysUnique
    ∧ (((u.write key v1 t1).write key v2 t2).kvs.filter
        (fun r => r.key == key)).length = 1
    ∧ ((u.write key v1 t1).write key v2 t2).read key = some v2 := by
  refine ⟨?_, ?_, uip_read_write _ key v2 t2⟩
  · suffices h : ∀ (l : List (Bytes × Bytes × Nat)) (u0 : UpdateInPlaceState),
        u0.keysUnique → (u0.writeSeq l).keysUnique by
      exact h ws UpdateInPlace.openState List.nodup_nil
    intro l
    induction l with
    | nil => intro u0 h0; exact h0
    | cons w t ih =>
      intro u0 h0
      exact ih _ (uip_write_keysUnique u0 w.1 w.2.1 w.2.2 h0)
  · exact uip_write_countKey _ key v2 t2 (uip_write_keysUnique u key v1 t1 hu)

/-- Witness for uip_single_row at concrete writes. -/
theorem uip_single_row_witness :
    (UpdateInPlace.openState.writeSeq [([0], [1], 0)]).keysUnique
    ∧ (((UpdateInPlace.openState.write [0] [1] 0).write [0] [2] 1).kvs.filter
        (fun r => r.key == [0])).length = 1
    ∧ ((UpdateInPlace.openState.write [0] [1] 0).write [0] [2] 1).read [0]
      = some [2] :=
  uip_single_row [([0], [1], 0)] UpdateInPlace.openState [0] [1] [2] 0 1
    List.nodup_nil

/-- C7: deleting a key that is present (with its unique key row k) removes
the key row and, by the cascade, all of its value rows: the key is no longer
listed, a read returns not-found, and entries_count drops by exactly the
number of value rows of that key. -/
theorem append_delete_cascade (s : AppendState) (key : Bytes) (k : KeyRow)
    (hk : s.keys.filter (fun r => r.key == key) = [k]) :
    key ∉ (s.delete key).keysList
    ∧ (s.delete key).read key = none
    ∧ (s.delete key).entries_count + (s.valuesFor k.id).length = s.entries_count := by
  refine ⟨?_, ?_, ?_⟩
  · intro hmem
    unfold AppendState.keysList AppendState.delete at hmem
    rw [List.mem_map] at hmem
    obtain ⟨r, hr, hrk⟩ := hmem
    rw [List.mem_filter] at hr
    have hr2 := hr.2
    rw [hrk] at hr2
    simp at hr2
  · unfold AppendState.read
    have hnone : (s.delete key).keys.find? (fun r => r.key == key) = none := by
      rw [List.find?_eq_none]
      intro x hx hpx
      unfold AppendState.delete at hx
      rw [List.mem_filter] at hx
      have hx2 := hx.2
      rw [hpx] at hx2
      simp at hx2
    rw [hnone]
  · have hdead : (s.keys.filter (fun r => r.key == key)).map (fun r : KeyRow => r.id)
        = [k.id] := by rw [hk]; rfl
    show (s.vvalues.filter (fun v =>
        !(((s.keys.filter (fun r => r.key == key)).map (fun r : KeyRow => r.id)).contains
          v.key_id))).length
      + (s.vvalues.filter (fun v => v.key_id == k.id)).length = s.vvalues.length
    rw [hdead]
    have hpe : ∀ v ∈ s.vvalues, (!(([k.id] : List Nat).contains v.key_id))
        = (!(v.key_id == k.id)) := by
      intro v _
      rcases eq_or_ne v.key_id k.id with he | hne2
      · simp [he]
      · simp [hne2]
    rw [List.filter_congr hpe]
    have hsum := @List.length_eq_length_filter_add ValueRow s.vvalues
      (fun v => v.key_id == k.id)
    omega

/-- Witness for append_delete_cascade: deleting a two-version key. -/
theorem append_delete_cascade_witness :
    [0] ∉ ((⟨[⟨1, [0], 0⟩, ⟨2, [3], 0⟩],
        [⟨1, 1, [7], 1⟩, ⟨2, 1, [8], 2⟩, ⟨3, 2, [9], 3⟩]⟩ : AppendState).delete
        [0]).keysList
    ∧ ((⟨[⟨1, [0], 0⟩, ⟨2, [3], 0⟩],
        [⟨1, 1, [7], 1⟩, ⟨2, 1, [8], 2⟩, ⟨3, 2, [9], 3⟩]⟩ : AppendState).delete
        [0]).read [0] = none
    ∧ ((⟨[⟨1, [0], 0⟩, ⟨2, [3], 0⟩],
        [⟨1, 1, [7], 1⟩, ⟨2, 1, [8], 2⟩, ⟨3, 2, [9], 3⟩]⟩ : AppendState).delete
        [0]).entries_count
      + ((⟨[⟨1, [0], 0⟩, ⟨2, [3], 0⟩],
        [⟨1, 1, [7], 1⟩, ⟨2, 1, [8], 2⟩, ⟨3, 2, [9], 3⟩]⟩ : AppendState).valuesFor
          1).length
      = (⟨[⟨1, [0], 0⟩, ⟨2, [3], 0⟩],
        [⟨1, 1, [7], 1⟩, ⟨2, 1, [8], 2⟩, ⟨3, 2, [9], 3⟩]⟩ : AppendState).entries_count :=
  append_delete_cascade
    ⟨[⟨1, [0], 0⟩, ⟨2, [3], 0⟩], [⟨1, 1, [7], 1⟩, ⟨2, 1, [8], 2⟩, ⟨3, 2, [9], 3⟩]⟩
    [0] ⟨1, [0], 0⟩ (by decide)

/-- C2: when all value entries of each key carry pairwise distinct
timestamps, a successful collect_garbage deletes exactly the value entries
whose inserted_at is not the maximum for their key_id and retains the rest;
and in the concrete scenario of one key written four times with strictly
increasing timestamps, entries_count is 4 and keys_count is 1 before
collect_garbage, and afterwards entries_count is 1, keys_count is 1, and the
read returns the fourth value. -/
theorem gc_keeps_only_max (s : AppendState)
    (hid : s.valueIdsNodup)
    (hsep : ∀ a ∈ s.vvalues, ∀ b ∈ s.vvalues, a.key_id = b.key_id →
      a.inserted_at = b.inserted_at → a = b) :
    (s.collect_garbage).vvalues
      = s.vvalues.filter (fun r => decide (r.inserted_at = s.groupMaxTs r.key_id))
    ∧ (Append.openState.writeMany [0]
        [([1], 1), ([2], 2), ([3], 3), ([4], 4)]).entries_count = 4
    ∧ (Append.openState.writeMany [0]
        [([1], 1), ([2], 2), ([3], 3), ([4], 4)]).keys_count = 1
    ∧ (Append.openState.writeMany [0]
        [([1], 1), ([2], 2), ([3], 3), ([4], 4)]).collect_garbage.entries_count = 1
    ∧ (Append.openState.writeMany [0]
        [([1], 1), ([2], 2), ([3], 3), ([4], 4)]).collect_garbage.keys_count = 1
    ∧ (Append.openState.writeMany [0]
        [([1], 1), ([2], 2), ([3], 3), ([4], 4)]).collect_garbage.read [0]
      = some [4] := by
  refine ⟨?_, by decide, by decide, by decide, by decide, by decide⟩
  rw [gc_vvalues_eq s hid]
  refine List.filter_congr fun r hr => ?_
  rw [decide_eq_decide]
  constructor
  · intro h
    exact (chosenRow_spec h).2.2
  · intro h
    obtain ⟨w, hw⟩ := chosenRow_isSome (mem_valuesFor.mpr ⟨hr, rfl⟩)
    obtain ⟨hwm, hwk, hwts⟩ := chosenRow_spec hw
    have hwr : w = r := hsep w hwm r hr hwk (by rw [hwts, h])
    rw [hwr] at hw
    exact hw

/-- Witness for gc_keeps_only_max at a concrete tie-free two-version state. -/
theorem gc_keeps_only_max_witness :
    (⟨[⟨1, [0], 0⟩], [⟨1, 1, [7], 5⟩, ⟨2, 1, [8], 6⟩]⟩ :
        AppendState).collect_garbage.vvalues
      = (⟨[⟨1, [0], 0⟩], [⟨1, 1, [7], 5⟩, ⟨2, 1, [8], 6⟩]⟩ :
          AppendState).vvalues.filter
        (fun r => decide (r.inserted_at
          = (⟨[⟨1, [0], 0⟩], [⟨1, 1, [7], 5⟩, ⟨2, 1, [8], 6⟩]⟩ :
              AppendState).groupMaxTs r.key_id)) :=
  (gc_keeps_only_max ⟨[⟨1, [0], 0⟩], [⟨1, 1, [7], 5⟩, ⟨2, 1, [8], 6⟩]⟩
    (by unfold AppendState.valueIdsNodup; decide) (by decide)).1

/-- C3 counterexample: in tieState the two value rows of key_id 1 both
attain the maximal timestamp 5, yet collect_garbage does not keep both of
them — the claim that both tied entries survive is false on this input. -/
theorem gc_tie_not_both :
    (⟨1, 1, [7], 5⟩ : ValueRow) ∈ tieState.vvalues
    ∧ (⟨2, 1, [8], 5⟩ : ValueRow) ∈ tieState.vvalues
    ∧ tieState.groupMaxTs 1 = 5
    ∧ ¬((⟨1, 1, [7], 5⟩ : ValueRow) ∈ tieState.collect_garbage.vvalues
      ∧ (⟨2, 1, [8], 5⟩ : ValueRow) ∈ tieState.collect_garbage.vvalues) := by
  decide

/-- C3 amended: when exactly two distinct value entries of one key both
attain the key's maximal inserted_at, collect_garbage retains exactly one of
the two (the single representative row the CTE reports for the key) and
deletes the other; it never retains both. -/
theorem gc_tie_one_survivor (s : AppendState) (a b : ValueRow)
    (hid : s.valueIdsNodup) (ha : a ∈ s.vvalues) (hb : b ∈ s.vvalues)
    (hne : a ≠ b) (hkid : a.key_id = b.key_id)
    (hmax1 : a.inserted_at = s.groupMaxTs a.key_id)
    (hmax2 : b.inserted_at = s.groupMaxTs b.key_id)
    (htwo : ∀ c ∈ s.vvalues, c.key_id = a.key_id →
      c.inserted_at = s.groupMaxTs a.key_id → c = a ∨ c = b) :
    (a ∈ s.collect_garbage.vvalues ∧ b ∉ s.collect_garbage.vvalues)
    ∨ (b ∈ s.collect_garbage.vvalues ∧ a ∉ s.collect_garbage.vvalues) := by
  obtain ⟨w, hw⟩ := chosenRow_isSome (mem_valuesFor.mpr ⟨ha, rfl⟩)
  obtain ⟨hwm, hwk, hwts⟩ := chosenRow_spec hw
  have hwmem : w ∈ s.collect_garbage.vvalues := by
    rw [gc_vvalues_eq s hid, List.mem_filter]
    refine ⟨hwm, ?_⟩
    rw [decide_eq_true_eq, hwk]
    exact hw
  have hnotboth : ¬(a ∈ s.collect_garbage.vvalues ∧ b ∈ s.collect_garbage.vvalues) := by
    rintro ⟨hga, hgb⟩
    have h1 := gc_chosen_of_mem s hid hga
    have h2 := gc_chosen_of_mem s hid hgb
    rw [← hkid] at h2
    rw [h1] at h2
    exact hne (Option.some.inj h2)
  rcases htwo w hwm hwk hwts with rfl | rfl
  · exact Or.inl ⟨hwmem, fun hgb => hnotboth ⟨hwmem, hgb⟩⟩
  · exact Or.inr ⟨hwmem, fun hga => hnotboth ⟨hga, hwmem⟩⟩

/-- Witness for gc_tie_one_survivor at the concrete tied state. -/
theorem gc_tie_one_survivor_witness :
    ((⟨1, 1, [7], 5⟩ : ValueRow) ∈ tieState.collect_garbage.vvalues
      ∧ (⟨2, 1, [8], 5⟩ : ValueRow) ∉ tieState.collect_garbage.vvalues)
    ∨ ((⟨2, 1, [8], 5⟩ : ValueRow) ∈ tieState.collect_garbage.vvalues
      ∧ (⟨1, 1, [7], 5⟩ : ValueRow) ∉ tieState.collect_garbage.vvalues) :=
  gc_tie_one_survivor tieState ⟨1, 1, [7], 5⟩ ⟨2, 1, [8], 5⟩
    (by unfold AppendState.valueIdsNodup; decide) (by decide) (by decide)
    (by decide) rfl (by decide) (by decide) (by decide)

/-- C10: collect_garbage is idempotent — a second run deletes no value
entries and leaves the state of the first run unchanged — and on a store
where every key has at most one value entry it is a no-op. -/
theorem gc_idempotent (s : AppendState) (hid : s.valueIdsNodup) :
    s.collect_garbage.collect_garbage = s.collect_garbage
    ∧ ((∀ a ∈ s.vvalues, ∀ b ∈ s.vvalues, a.key_id = b.key_id → a = b) →
      s.collect_garbage = s) := by
  constructor
  · refine appendState_ext rfl ?_
    show s.collect_garbage.vvalues.filter _ = s.collect_garbage.vvalues
    apply List.filter_eq_self.mpr
    intro r hr
    rw [decide_eq_true_eq]
    have hrs : s.chosenRow r.key_id = some r := gc_chosen_of_mem s hid hr
    have hall : ∀ x ∈ s.collect_garbage.valuesFor r.key_id, x = r := by
      intro x hx
      obtain ⟨hx1, hx2⟩ := mem_valuesFor.mp hx
      have hcx := gc_chosen_of_mem s hid hx1
      rw [hx2] at hcx
      rw [hrs] at hcx
      exact (Option.some.inj hcx).symm
    have hgrp : r ∈ s.collect_garbage.valuesFor r.key_id :=
      mem_valuesFor.mpr ⟨hr, rfl⟩
    have hchosen : s.collect_garbage.chosenRow r.key_id = some r := by
      unfold AppendState.chosenRow AppendState.groupMaxTs
      exact chosenRow_of_all_eq hgrp hall
    exact mem_currentValueIds.mpr
      ⟨r.key_id, List.mem_map_of_mem _ hr, r, hchosen, rfl⟩
  · intro hone
    refine appendState_ext rfl ?_
    show s.vvalues.filter _ = s.vvalues
    apply List.filter_eq_self.mpr
    intro r hr
    rw [decide_eq_true_eq]
    have hgrp : r ∈ s.valuesFor r.key_id := mem_valuesFor.mpr ⟨hr, rfl⟩
    obtain ⟨w, hw⟩ := chosenRow_isSome hgrp
    obtain ⟨hwm, hwk, _⟩ := chosenRow_spec hw
    have hwr : w = r := hone w hwm r hr hwk
    rw [hwr] at hw
    exact mem_currentValueIds.mpr
      ⟨r.key_id, List.mem_map_of_mem _ hr, r, hw, rfl⟩

/-- Witness for gc_idempotent at a concrete one-entry-per-key state. -/
theorem gc_idempotent_witness :
    (⟨[⟨1, [0], 0⟩], [⟨1, 1, [7], 4⟩]⟩ :
        AppendState).collect_garbage.collect_garbage
      = (⟨[⟨1, [0], 0⟩], [⟨1, 1, [7], 4⟩]⟩ : AppendState).collect_garbage
    ∧ (⟨[⟨1, [0], 0⟩], [⟨1, 1, [7], 4⟩]⟩ : AppendState).collect_garbage
      = ⟨[⟨1, [0], 0⟩], [⟨1, 1, [7], 4⟩]⟩ :=
  ⟨(gc_idempotent ⟨[⟨1, [0], 0⟩], [⟨1, 1, [7], 4⟩]⟩
      (by unfold AppendState.valueIdsNodup; decide)).1,
   (gc_idempotent ⟨[⟨1, [0], 0⟩], [⟨1, 1, [7], 4⟩]⟩
      (by unfold AppendState.valueIdsNodup; decide)).2 (by decide)⟩

/-- C5: every successful Append write appends exactly one value entry to the
end of vvalues, deleting or mutating none, and preserves at-most-one key
entry per distinct key; writing one key n times with strictly increasing
timestamps yields n value entries, a keys count of 1, and a read returning
the most recently written value. -/
theorem append_write_additive (s : AppendState) (key value : Bytes) (now : Nat)
    (pairs : List (Bytes × Nat)) (hnd : s.keysUnique)
    (hmono : List.Pairwise (· < ·) (pairs.map Prod.snd)) (hne : pairs ≠ []) :
    (s.write key value now).vvalues
      = s.vvalues ++ [⟨freshId (s.vvalues.map (fun r : ValueRow => r.id)),
          (s.upsertKey key now).2, value, now⟩]
    ∧ (s.write key value now).keysUnique
    ∧ (Append.openState.writeMany key pairs).entries_count = pairs.length
    ∧ (Append.openState.writeMany key pairs).keys_count = 1
    ∧ (Append.openState.writeMany key pairs).read key = some (pairs.getLast hne).1 := by
  refine ⟨write_vvalues s key value now, write_keysUnique s key value now hnd,
    writeMany_entries key pairs, ?_, writeMany_read key pairs hmono hne⟩
  obtain ⟨t, ht⟩ := writeMany_keys_single key pairs hne
  unfold AppendState.keys_count
  rw [ht]
  rfl

/-- Witness for append_write_additive at a concrete two-write sequence. -/
theorem append_write_additive_witness :
    (Append.openState.write [0] [9] 3).vvalues
      = Append.openState.vvalues ++ [⟨freshId (Append.openState.vvalues.map
          (fun r : ValueRow => r.id)), (Append.openState.upsertKey [0] 3).2, [9], 3⟩]
    ∧ (Append.openState.write [0] [9] 3).keysUnique
    ∧ (Append.openState.writeMany [0] [([1], 1), ([2], 2)]).entries_count = 2
    ∧ (Append.openState.writeMany [0] [([1], 1), ([2], 2)]).keys_count = 1
    ∧ (Append.openState.writeMany [0] [([1], 1), ([2], 2)]).read [0] = some [2] :=
  append_write_additive Append.openState [0] [9] 3 [([1], 1), ([2], 2)]
    List.nodup_nil (by decide) (by decide)

end Kvqlite
